import Mathlib

/-!
Verification of the BiimSlideMaker pipeline (`movie_maker_gui.py`).

The pure core of the program is embedded shallowly:
* strings are `List Char`, mirroring Python's per-character operations;
* `split_script` mirrors the sentence segmentation (source lines 103-113);
* `wrap_text_lines` / `fit_text_to_box` mirror the greedy layout engine
  (source lines 130-186), with the font rasterizer abstracted as a
  `FontSpec` of measurement functions;
* the segment construction of `_generate_audio` (lines 698-724), the worker
  skip logic (lines 738-741), the manifest dump/load (lines 755-766 and
  890-909) and the concat-list writer of `_assemble_video` (lines 835-839)
  are embedded over a `Segment` record identical to the Python dataclass.
-/

/-- Characters stripped by Python's `str.strip()` that can occur here:
ASCII whitespace plus the ideographic space. -/
def isPySpace (c : Char) : Bool :=
  c = ' ' || c = '\t' || c = '\n' || c = '\r' || c = '\x0b' || c = '\x0c' || c = '　'

/-- Python `s.strip()`: drop leading and trailing whitespace. -/
def pyStrip (l : List Char) : List Char :=
  ((l.dropWhile isPySpace).reverse.dropWhile isPySpace).reverse

/-- Python `s.split(sep)` for a one-character separator. -/
def pySplit (sep : Char) : List Char → List (List Char)
  | [] => [[]]
  | c :: rest =>
    let r := pySplit sep rest
    if c = sep then [] :: r
    else
      match r with
      | [] => [[c]]
      | p :: ps => (c :: p) :: ps

/-- `chunk.endswith(("。", "！", "？", "!", "."))` from `split_script`
(source line 111): true iff the last character is one of the five
terminal punctuation marks. -/
def endsWithTerminal (l : List Char) : Bool :=
  match l.getLast? with
  | some c => c = '。' || c = '！' || c = '？' || c = '!' || c = '.'
  | none => false

/-- `(text or "").replace("\r", "")` from `split_script` (source line 105). -/
def cleanedText (text : List Char) : List Char :=
  text.filter (· ≠ '\r')

/-- One iteration of the `split_script` loop (source lines 107-112): strip the
fragment, skip it when empty, otherwise append the delimiter suffix. -/
def appendKept (chunk : List Char) (acc : List (List Char)) : List (List Char) :=
  let chunk := pyStrip chunk
  if chunk = [] then acc
  else (chunk ++ (if endsWithTerminal chunk then [] else ['。'])) :: acc

/-- `split_script` (source lines 103-113): remove `'\r'`, split on `'。'`,
strip each fragment, drop empty fragments, append `'。'` to a fragment that
does not already end in a terminal mark, and fall back to the single
stripped input if no fragment survives. -/
def split_script (text : List Char) : List (List Char) :=
  let parts := (pySplit '。' (cleanedText text)).foldr appendKept []
  if parts = [] then [pyStrip (cleanedText text)] else parts

/-- The fragments kept by `split_script`'s loop: the stripped pieces of the
`'。'`-split that are non-empty. -/
def keptFragments (text : List Char) : List (List Char) :=
  ((pySplit '。' (cleanedText text)).map pyStrip).filter (· ≠ [])

/-- The terminator rule applied to one kept fragment (source line 111). -/
def addTerminator (chunk : List Char) : List Char :=
  if endsWithTerminal chunk then chunk else chunk ++ ['。']

theorem foldr_appendKept (frags : List (List Char)) :
    frags.foldr appendKept [] =
      ((frags.map pyStrip).filter (· ≠ [])).map addTerminator := by
  induction frags with
  | nil => rfl
  | cons f fs ih =>
    by_cases h : pyStrip f = []
    · simp [appendKept, h, ih]
    · by_cases ht : endsWithTerminal (pyStrip f) = true <;>
        simp [appendKept, addTerminator, h, ht, ih]

theorem split_script_parts_eq (text : List Char) :
    split_script text =
      (if keptFragments text = [] then [pyStrip (cleanedText text)]
       else (keptFragments text).map addTerminator) := by
  unfold split_script keptFragments
  simp only [foldr_appendKept, List.map_eq_nil_iff]

theorem pySplit_eq_single {sep : Char} {l : List Char} (h : ∀ c ∈ l, c ≠ sep) :
    pySplit sep l = [l] := by
  induction l with
  | nil => rfl
  | cons c rest ih =>
    have hc : c ≠ sep := h c (List.mem_cons_self c rest)
    have hrest : pySplit sep rest = [rest] := ih fun x hx => h x (List.mem_cons_of_mem c hx)
    simp [pySplit, hc, hrest]

theorem pyStrip_of_all_space {l : List Char} (h : ∀ c ∈ l, isPySpace c = true) :
    pyStrip l = [] := by
  unfold pyStrip
  have h1 : l.dropWhile isPySpace = [] := by
    rw [List.dropWhile_eq_nil_iff]
    intro x hx; exact h x hx
  simp [h1]

theorem pyStrip_singleton {c : Char} (h : isPySpace c = false) : pyStrip [c] = [c] := by
  simp [pyStrip, List.dropWhile, h]

/-- C8: every empty or whitespace-only input yields exactly one chunk
(the empty string), never an empty list. -/
theorem split_script_whitespace_single_chunk (text : List Char)
    (h : ∀ c ∈ text, isPySpace c = true) :
    split_script text = [[]] ∧ (split_script text).length = 1 := by
  have hclean : ∀ c ∈ cleanedText text, isPySpace c = true := by
    intro c hc; exact h c (List.mem_of_mem_filter hc)
  have hnosep : ∀ c ∈ cleanedText text, c ≠ '。' := by
    intro c hc heq
    have := hclean c hc
    rw [heq] at this
    simp [isPySpace] at this
  have hsplit : pySplit '。' (cleanedText text) = [cleanedText text] :=
    pySplit_eq_single hnosep
  have hstrip : pyStrip (cleanedText text) = [] :=
    pyStrip_of_all_space hclean
  have hkept : keptFragments text = [] := by
    unfold keptFragments
    rw [hsplit]
    simp [hstrip]
  rw [split_script_parts_eq, if_pos hkept, hstrip]
  exact ⟨rfl, rfl⟩

/-- C6: `split_script` discards fragments that are empty after trimming and
appends `'。'` to every surviving fragment that does not already end in a
terminal punctuation mark; concretely, "A。B。C" becomes ["A。", "B。", "C。"]. -/
theorem split_script_appends_delimiter :
    (∀ text : List Char, keptFragments text ≠ [] →
        split_script text = (keptFragments text).map addTerminator) ∧
    split_script ("A。B。C".toList) = ["A。".toList, "B。".toList, "C。".toList] := by
  constructor
  · intro text h
    rw [split_script_parts_eq, if_neg h]
  · decide

/-- Witness for C6 at the concrete input "X。Y". -/
theorem split_script_appends_delimiter_witness :
    split_script ("X。Y".toList) = (keptFragments ("X。Y".toList)).map addTerminator :=
  split_script_appends_delimiter.1 ("X。Y".toList) (by decide)

/-- Witness for C8 at the concrete whitespace-only input " \n ". -/
theorem split_script_whitespace_single_chunk_witness :
    split_script (" \n ".toList) = [[]] ∧ (split_script (" \n ".toList)).length = 1 :=
  split_script_whitespace_single_chunk (" \n ".toList) (by decide)

/-- C7 counterexample: on "Hello! Done" the code appends `'。'` (the text does
not end in a terminal mark), so the single returned chunk is "Hello! Done。",
not the unchanged input ending in the original terminator. -/
theorem split_script_terminator_counterexample :
    split_script ("Hello! Done".toList) ≠ ["Hello! Done".toList] ∧
    split_script ("Hello! Done".toList) = ["Hello! Done。".toList] ∧
    ("Hello! Done。".toList).getLast? = some '。' := by
  refine ⟨?_, by decide, by decide⟩
  decide

/-- C7 amended: "Hello! Done" yields the single chunk "Hello! Done。" (the
delimiter is appended because the text ends in 'e', not a terminator), while
an input already ending in a terminator, such as "Hello!", is returned as a
single chunk unchanged with no duplicate punctuation. -/
theorem split_script_terminator_amended :
    split_script ("Hello! Done".toList) = ["Hello! Done。".toList] ∧
    split_script ("Hello!".toList) = ["Hello!".toList] := by
  constructor <;> decide

/-- C10: the terminal punctuation set is exactly {'。', '！', '？', '!', '.'};
a single non-space character is kept unchanged exactly when it is in that
set and otherwise gets `'。'` appended — in particular '?' is not in the set,
so "OK?" becomes "OK?。". -/
theorem split_script_terminal_char_set :
    (∀ c : Char, isPySpace c = false →
        split_script [c] =
          (if c = '。' ∨ c = '！' ∨ c = '？' ∨ c = '!' ∨ c = '.'
           then [[c]] else [[c, '。']])) ∧
    split_script ("OK?".toList) = ["OK?。".toList] := by
  constructor
  · intro c hsp
    by_cases hc : c = '。'
    · subst hc; decide
    · have hcr : c ≠ '\r' := by
        intro h; rw [h] at hsp; simp [isPySpace] at hsp
      have hfilter : cleanedText [c] = [c] := by simp [cleanedText, hcr]
      have hsplit : pySplit '。' [c] = [[c]] := pySplit_eq_single (by simpa using hc)
      have hstrip : pyStrip [c] = [c] := pyStrip_singleton hsp
      have hterm : endsWithTerminal [c] =
          (c = '。' || c = '！' || c = '？' || c = '!' || c = '.') := by
        simp [endsWithTerminal]
      by_cases ht : c = '！' ∨ c = '？' ∨ c = '!' ∨ c = '.'
      · have hb : endsWithTerminal [c] = true := by
          rw [hterm]
          rcases ht with h | h | h | h <;> simp [h]
        have happ : appendKept [c] [] = [[c]] := by
          simp [appendKept, hstrip, hb]
        rw [split_script]
        simp only [hfilter, hsplit, List.foldr_cons, List.foldr_nil, happ]
        rw [if_neg (by simp), if_pos (Or.inr ht)]
      · have hb : endsWithTerminal [c] = false := by
          rw [hterm]
          push_neg at ht
          simp [hc, ht.1, ht.2.1, ht.2.2.1, ht.2.2.2]
        have hor : ¬(c = '。' ∨ c = '！' ∨ c = '？' ∨ c = '!' ∨ c = '.') := by
          push_neg at ht ⊢
          exact ⟨hc, ht.1, ht.2.1, ht.2.2.1, ht.2.2.2⟩
        have happ : appendKept [c] [] = [[c, '。']] := by
          simp [appendKept, hstrip, hb]
        rw [split_script]
        simp only [hfilter, hsplit, List.foldr_cons, List.foldr_nil, happ]
        rw [if_neg (by simp), if_neg hor]
  · decide

/-- Witness for C10 at the concrete character '?'. -/
theorem split_script_terminal_char_set_witness :
    split_script ['?'] = [['?', '。']] := by
  have h := split_script_terminal_char_set.1 '?' (by decide)
  simpa using h

/-- One step of `re.split(r"\n+", ...)` scanned right to left: the flag
records whether the character to the right was a newline. -/
def splitNlStep (c : Char) : Bool × List (List Char) → Bool × List (List Char)
  | (inRun, pieces) =>
    if c = '\n' then
      if inRun then (true, pieces) else (true, [] :: pieces)
    else
      match pieces with
      | [] => (false, [[c]])
      | p :: ps => (false, (c :: p) :: ps)

/-- `re.split(r"\n+", text)` (source line 141): split on maximal runs of
newline characters. -/
def splitNlRuns (l : List Char) : List (List Char) :=
  (l.foldr splitNlStep (false, [[]])).2

/-- The inner loop of `wrap_text_lines` (source lines 144-154): grow the
current line one character at a time; commit it and restart from the
offending character as soon as the measured width of the grown line exceeds
the box width, unless the current line is still empty. -/
def wrapLoop (w : List Char → Int) (maxW : Int) : List Char → List Char → List (List Char)
  | current, [] => if current = [] then [] else [current]
  | current, c :: rest =>
    let attempt := current ++ [c]
    if w attempt ≤ maxW ∨ current = [] then wrapLoop w maxW attempt rest
    else current :: wrapLoop w maxW [c] rest

/-- `wrap_text_lines` (source lines 130-155), with `draw.textlength` at the
chosen font abstracted as the measure `w`. -/
def wrap_text_lines (w : List Char → Int) (maxW : Int) (text : List Char) :
    List (List Char) :=
  if text = [] then []
  else
    let lines :=
      ((splitNlRuns (pyStrip text)).map
        (fun p => if p = [] then [] else wrapLoop w maxW [] p)).flatten
    if lines = [] then [[]] else lines

theorem wrapLoop_width_bound (w : List Char → Int) (maxW : Int) :
    ∀ (rest current : List Char),
      (current = [] ∨ w current ≤ maxW ∨ current.length = 1) →
      ∀ line ∈ wrapLoop w maxW current rest, w line ≤ maxW ∨ line.length = 1 := by
  intro rest
  induction rest with
  | nil =>
    intro current hinv line hline
    unfold wrapLoop at hline
    by_cases h : current = []
    · simp [h] at hline
    · simp only [if_neg h, List.mem_singleton] at hline
      subst hline
      rcases hinv with h' | h' | h'
      · exact absurd h' h
      · exact Or.inl h'
      · exact Or.inr h'
  | cons c rest ih =>
    intro current hinv line hline
    unfold wrapLoop at hline
    by_cases hcond : w (current ++ [c]) ≤ maxW ∨ current = []
    · rw [if_pos hcond] at hline
      refine ih (current ++ [c]) ?_ line hline
      rcases hcond with h | h
      · exact Or.inr (Or.inl h)
      · subst h
        exact Or.inr (Or.inr rfl)
    · rw [if_neg hcond] at hline
      push_neg at hcond
      rcases List.mem_cons.mp hline with h | h
      · subst h
        rcases hinv with h' | h' | h'
        · exact absurd h' hcond.2
        · exact Or.inl h'
        · exact Or.inr h'
      · exact ih [c] (Or.inr (Or.inr rfl)) line h

/-- C5: with a measure giving the empty string zero width and a box of
nonnegative width, every line emitted by the greedy character-granular
wrapping has rendered width at most the box width, except possibly a line
consisting of a single character that itself overflows. -/
theorem wrap_lines_width_bound (w : List Char → Int) (maxW : Int) (text : List Char)
    (hempty : w [] = 0) (hW : 0 ≤ maxW) (htext : text ≠ []) :
    ∀ line ∈ wrap_text_lines w maxW text, w line ≤ maxW ∨ line.length = 1 := by
  intro line hline
  unfold wrap_text_lines at hline
  rw [if_neg htext] at hline
  set pieces := (splitNlRuns (pyStrip text)).map
    (fun p => if p = [] then [] else wrapLoop w maxW [] p) with hpieces
  by_cases hnil : pieces.flatten = []
  · simp only [← hpieces, hnil, if_pos, List.mem_singleton] at hline
    subst hline
    left
    rw [hempty]
    exact hW
  · simp only [← hpieces, if_neg hnil] at hline
    rcases List.mem_flatten.mp hline with ⟨piece, hpmem, hlmem⟩
    rcases List.mem_map.mp hpmem with ⟨p, _, hp⟩
    subst hp
    by_cases hpe : p = []
    · simp [hpe] at hlmem
    · rw [if_neg hpe] at hlmem
      exact wrapLoop_width_bound w maxW p [] (Or.inl rfl) line hlmem

/-- Witness for C5: measure = length, box width 2, text "abc"; the line "ab"
is emitted and satisfies the bound. -/
theorem wrap_lines_width_bound_witness :
    (fun l : List Char => (l.length : Int)) ['a', 'b'] ≤ 2 ∨
      (['a', 'b'] : List Char).length = 1 :=
  wrap_lines_width_bound (fun l : List Char => (l.length : Int)) 2 ['a', 'b', 'c']
    rfl (by decide) (by decide) ['a', 'b'] (by decide)

/-- The font rasterizer's measurement interface: `draw.textlength` and
`font.getmetrics()` for the font loaded at a given size. -/
structure FontSpec where
  width : Int → List Char → Int
  ascent : Int → Int
  descent : Int → Int

/-- A text box `(x0, y0, x1, y1)` as used by `fit_text_to_box`. -/
structure Box where
  x0 : Int
  y0 : Int
  x1 : Int
  y1 : Int

/-- The tuple `(font, lines, line_height, line_spacing)` that
`fit_text_to_box` returns, with the font represented by its size. -/
structure Layout where
  size : Int
  lines : List (List Char)
  line_height : Int
  line_spacing : Int
deriving DecidableEq

/-- The layout computed inside the loop of `fit_text_to_box` at one candidate
size (source lines 174-180); `int(size * 0.2)` is truncated division by 5. -/
def layoutAt (f : FontSpec) (text : List Char) (boxW : Int) (size : Int) : Layout :=
  { size := size,
    lines := wrap_text_lines (f.width size) boxW text,
    line_height := f.ascent size + f.descent size,
    line_spacing := max 4 (Int.tdiv size 5) }

/-- `line_height * len(lines) + line_spacing * max(0, len(lines) - 1)`
(source line 179). -/
def totalHeight (l : Layout) : Int :=
  l.line_height * l.lines.length + l.line_spacing * max 0 ((l.lines.length : Int) - 1)

/-- Python `range(start, stop, -2)`. -/
def rangeDown2 (start stop : Int) : List Int :=
  (List.range (if stop < start then (start - stop - 1).toNat / 2 + 1 else 0)).map
    (fun k : Nat => start - 2 * (k : Int))

/-- The candidate loop of `fit_text_to_box` (source lines 173-181): remember
the most recent layout as fallback, return the first candidate whose total
height fits the box, and otherwise the fallback. -/
def fitLoop (f : FontSpec) (text : List Char) (boxW boxH : Int) :
    List Int → Option Layout → Option Layout
  | [], fallback => fallback
  | size :: rest, _ =>
    let l := layoutAt f text boxW size
    if totalHeight l ≤ boxH then some l else fitLoop f text boxW boxH rest (some l)

/-- `fit_text_to_box` (source lines 158-186): descend through
`range(max_size, min_size - 1, -2)`; `none` models the `RuntimeError` raised
when the loop never ran and no fallback exists. -/
def fit_text_to_box (f : FontSpec) (text : List Char) (box : Box)
    (max_size min_size : Int) : Option Layout :=
  fitLoop f text (box.x1 - box.x0) (box.y1 - box.y0)
    (rangeDown2 max_size (min_size - 1)) none

theorem fitLoop_isSome (f : FontSpec) (text : List Char) (boxW boxH : Int) :
    ∀ (cands : List Int), cands ≠ [] → ∀ fb : Option Layout,
      (fitLoop f text boxW boxH cands fb).isSome = true := by
  intro cands
  induction cands with
  | nil => intro h; exact absurd rfl h
  | cons s rest ih =>
    intro _ fb
    unfold fitLoop
    by_cases hfit : totalHeight (layoutAt f text boxW s) ≤ boxH
    · simp [hfit]
    · simp only [if_neg hfit]
      cases rest with
      | nil => simp [fitLoop]
      | cons s' rest' => exact ih (by simp) _

theorem fitLoop_cons (f : FontSpec) (text : List Char) (boxW boxH size : Int)
    (rest : List Int) (fb : Option Layout) :
    fitLoop f text boxW boxH (size :: rest) fb =
      (if totalHeight (layoutAt f text boxW size) ≤ boxH
       then some (layoutAt f text boxW size)
       else fitLoop f text boxW boxH rest (some (layoutAt f text boxW size))) := rfl

theorem rangeDown2_eq_nil_iff (start stop : Int) :
    rangeDown2 start stop = [] ↔ start ≤ stop := by
  unfold rangeDown2
  rw [List.map_eq_nil_iff, List.range_eq_nil]
  by_cases h : stop < start
  · rw [if_pos h]; omega
  · rw [if_neg h]; omega

/-- C9: the search returns a layout (rather than raising) exactly when
`min_size ≤ max_size`; when `min_size > max_size` the descending range is
empty, no fallback is ever computed, and the function raises. -/
theorem fit_text_to_box_isSome_iff (f : FontSpec) (text : List Char) (box : Box)
    (max_size min_size : Int) :
    (fit_text_to_box f text box max_size min_size).isSome = true ↔
      min_size ≤ max_size := by
  unfold fit_text_to_box
  constructor
  · intro h
    by_contra hlt
    have hnil : rangeDown2 max_size (min_size - 1) = [] :=
      (rangeDown2_eq_nil_iff _ _).mpr (by omega)
    rw [hnil] at h
    simp [fitLoop] at h
  · intro h
    have hne : rangeDown2 max_size (min_size - 1) ≠ [] := by
      intro hnil
      have := (rangeDown2_eq_nil_iff _ _).mp hnil
      omega
    exact fitLoop_isSome f text _ _ _ hne none

theorem getLastD_of_ne_nil {α : Type} {l : List α} (h : l ≠ []) (d d' : α) :
    l.getLastD d = l.getLastD d' := by
  cases l with
  | nil => exact absurd rfl h
  | cons a as => rw [List.getLastD_cons, List.getLastD_cons]

theorem fitLoop_fb_irrel (f : FontSpec) (text : List Char) (boxW boxH : Int)
    (cands : List Int) (h : cands ≠ []) (fb fb' : Option Layout) :
    fitLoop f text boxW boxH cands fb = fitLoop f text boxW boxH cands fb' := by
  cases cands with
  | nil => exact absurd rfl h
  | cons s rest => rfl

theorem fitLoop_eq_find (f : FontSpec) (text : List Char) (boxW boxH : Int) :
    ∀ (cands : List Int), cands ≠ [] →
      fitLoop f text boxW boxH cands none =
        some (match cands.find?
                (fun s => decide (totalHeight (layoutAt f text boxW s) ≤ boxH)) with
              | some s => layoutAt f text boxW s
              | none => layoutAt f text boxW (cands.getLastD 0)) := by
  intro cands
  induction cands with
  | nil => intro h; exact absurd rfl h
  | cons s rest ih =>
    intro _
    by_cases hfit : totalHeight (layoutAt f text boxW s) ≤ boxH
    · simp [fitLoop, List.find?, hfit]
    · cases rest with
      | nil => simp [fitLoop, List.find?, hfit]
      | cons s' rest' =>
        have hne : (s' :: rest' : List Int) ≠ [] := by simp
        have hstep : fitLoop f text boxW boxH (s :: s' :: rest') none =
            fitLoop f text boxW boxH (s' :: rest') none := by
          rw [fitLoop_cons, if_neg hfit]
          exact fitLoop_fb_irrel f text boxW boxH _ hne
            (some (layoutAt f text boxW s)) none
        rw [hstep, ih hne]
        have hfind : (s :: s' :: rest').find?
            (fun s => decide (totalHeight (layoutAt f text boxW s) ≤ boxH)) =
            (s' :: rest').find?
            (fun s => decide (totalHeight (layoutAt f text boxW s) ≤ boxH)) := by
          simp [List.find?, hfit]
        rw [hfind]
        have hlast : ((s :: s' :: rest' : List Int)).getLastD 0 =
            ((s' :: rest' : List Int)).getLastD 0 := by
          rw [List.getLastD_cons]
          exact getLastD_of_ne_nil hne s 0
        rw [hlast]

theorem rangeDown2_count (max_size min_size : Int) (h : min_size ≤ max_size) :
    rangeDown2 max_size (min_size - 1) =
      (List.range ((max_size - min_size).toNat / 2 + 1)).map
        (fun k : Nat => max_size - 2 * (k : Int)) := by
  unfold rangeDown2
  have hlt : min_size - 1 < max_size := by omega
  rw [if_pos hlt]
  have : (max_size - (min_size - 1) - 1).toNat = (max_size - min_size).toNat := by omega
  rw [this]

/-- C4 amended: for `min_size ≤ max_size` the search tries the candidates
`max_size, max_size - 2, ...` stopping before going below `min_size` (the
last candidate is `min_size` when `max_size - min_size` is even and
`min_size + 1` when it is odd), returns the layout of the first candidate
whose total block height fits the box height, and when no candidate fits
returns the layout of the last (smallest) candidate instead of failing. -/
theorem fit_search_amended (f : FontSpec) (text : List Char) (box : Box)
    (max_size min_size : Int) (h : min_size ≤ max_size) :
    (rangeDown2 max_size (min_size - 1)).head? = some max_size ∧
    (∀ s ∈ rangeDown2 max_size (min_size - 1),
        min_size ≤ s ∧ s ≤ max_size ∧ (max_size - s) % 2 = 0) ∧
    (rangeDown2 max_size (min_size - 1)).getLast? =
      some (min_size + (max_size - min_size) % 2) ∧
    fit_text_to_box f text box max_size min_size =
      some (match (rangeDown2 max_size (min_size - 1)).find?
              (fun s => decide (totalHeight (layoutAt f text (box.x1 - box.x0) s)
                ≤ box.y1 - box.y0)) with
            | some s => layoutAt f text (box.x1 - box.x0) s
            | none => layoutAt f text (box.x1 - box.x0)
                (min_size + (max_size - min_size) % 2)) := by
  have hrw := rangeDown2_count max_size min_size h
  have hlast : (rangeDown2 max_size (min_size - 1)).getLast? =
      some (min_size + (max_size - min_size) % 2) := by
    rw [hrw, List.range_succ, List.map_append]
    simp only [List.map_cons, List.map_nil]
    rw [List.getLast?_concat]
    congr 1
    omega
  have hne : rangeDown2 max_size (min_size - 1) ≠ [] := by
    intro hnil
    have := (rangeDown2_eq_nil_iff _ _).mp hnil
    omega
  refine ⟨?_, ?_, hlast, ?_⟩
  · rw [hrw, List.range_succ_eq_map]
    simp
  · intro s hs
    rw [hrw] at hs
    rcases List.mem_map.mp hs with ⟨k, hk, hks⟩
    rw [List.mem_range] at hk
    omega
  · unfold fit_text_to_box
    rw [fitLoop_eq_find f text _ _ _ hne]
    have hlastD : (rangeDown2 max_size (min_size - 1)).getLastD 0 =
        min_size + (max_size - min_size) % 2 := by
      rw [List.getLastD_eq_getLast?, hlast]
      rfl
    rw [hlastD]

/-- A degenerate measurement model for the C4 counterexample: every string
has zero rendered width and the line height equals the font size. -/
def cexFont : FontSpec :=
  { width := fun _ _ => 0, ascent := fun s => s, descent := fun _ => 0 }

/-- A box of width 10 and height 0 so that no candidate size fits. -/
def cexBox : Box := ⟨0, 0, 10, 0⟩

/-- C4 counterexample: at `max_size = 5`, `min_size = 2` the candidates are
5 and 3 only; nothing fits the height-0 box, and the function returns the
layout at size 3 — not the `min_size` (= 2) layout the claim promises, which
is a different layout. -/
theorem fit_min_size_fallback_counterexample :
    fit_text_to_box cexFont ['a'] cexBox 5 2 = some (layoutAt cexFont ['a'] 10 3) ∧
    layoutAt cexFont ['a'] 10 3 ≠ layoutAt cexFont ['a'] 10 2 := by
  constructor <;> decide

/-- Witness for the amended C4 at the concrete instance `max_size = 5`,
`min_size = 2` over the degenerate font model. -/
theorem fit_search_amended_witness :
    (rangeDown2 5 1).head? = some 5 ∧
    (rangeDown2 5 1).getLast? = some (2 + (5 - 2) % 2) ∧
    fit_text_to_box cexFont ['a'] cexBox 5 2 =
      some (match (rangeDown2 5 1).find?
              (fun s => decide (totalHeight (layoutAt cexFont ['a'] (cexBox.x1 - cexBox.x0) s)
                ≤ cexBox.y1 - cexBox.y0)) with
            | some s => layoutAt cexFont ['a'] (cexBox.x1 - cexBox.x0) s
            | none => layoutAt cexFont ['a'] (cexBox.x1 - cexBox.x0) (2 + (5 - 2) % 2)) :=
  ⟨(fit_search_amended cexFont ['a'] cexBox 5 2 (by decide)).1,
   (fit_search_amended cexFont ['a'] cexBox 5 2 (by decide)).2.2.1,
   (fit_search_amended cexFont ['a'] cexBox 5 2 (by decide)).2.2.2⟩

/-- The `Segment` dataclass (source lines 316-324). -/
structure Segment where
  slide_id : Int
  chunk_index : Int
  sequence : Int
  script_text : List Char
  note_bottom : List Char
  slide_image : List Char
  audio_path : List Char
deriving DecidableEq

/-- Python zero-padded decimal formatting `f"{n:0kd}"` for width `k`. -/
def fmtPad (k : Nat) (n : Int) : List Char :=
  if n < 0 then
    '-' :: (List.replicate (k - 1 - (Nat.toDigits 10 n.natAbs).length) '0'
      ++ Nat.toDigits 10 n.natAbs)
  else
    List.replicate (k - (Nat.toDigits 10 n.natAbs).length) '0' ++ Nat.toDigits 10 n.natAbs

/-- `Segment.chunk_name` (source lines 326-328). -/
def Segment.chunk_name (s : Segment) : List Char :=
  fmtPad 3 s.slide_id ++ '_' :: fmtPad 2 s.chunk_index

/-- One slide entry of the YAML `slides` list as consumed by
`_generate_audio` (source lines 700-703), with `slide.get` defaults applied
for `script` and `note_bottom` and the `id` default kept explicit. -/
structure SlideData where
  id : Option Int
  script : List Char
  note_bottom : List Char

/-- The inner loop of `_generate_audio` (source lines 705-721): one Segment
per sentence, with 1-based `chunk_index`, the global `sequence` counter, and
the audio path `chunk_{slide_id:03d}_{idx:02d}.wav` under the audio dir. -/
def segChunks (audioDir img : List Char) (sid : Int) (note : List Char) :
    Int → Int → List (List Char) → List Segment
  | _, _, [] => []
  | seq, idx, s :: rest =>
    { slide_id := sid, chunk_index := idx, sequence := seq,
      script_text := pyStrip s, note_bottom := note, slide_image := img,
      audio_path := audioDir ++ '/' ::
        ("chunk_".toList ++ fmtPad 3 sid ++ '_' :: fmtPad 2 idx ++ ".wav".toList) } ::
      segChunks audioDir img sid note (seq + 1) (idx + 1) rest

/-- The outer loop of `_generate_audio` (source lines 698-721): slides in
order, `sequence` continuing across slides from 1, failing on the first
slide whose id has no rasterized PNG (`slide_images.get(slide_id, "")`
empty, source lines 713 and 716-719). -/
def buildSegs (audioDir : List Char) (imgs : Int → List Char) :
    Int → List SlideData → Except (List Char) (List Segment)
  | _, [] => .ok []
  | seq, slide :: rest =>
    if imgs (slide.id.getD seq) = [] then .error ("missing slide png".toList)
    else
      match buildSegs audioDir imgs (seq + (split_script slide.script).length) rest with
      | .error e => .error e
      | .ok tail =>
        .ok (segChunks audioDir (imgs (slide.id.getD seq)) (slide.id.getD seq)
              slide.note_bottom seq 1 (split_script slide.script) ++ tail)

/-- One call of the two-step `audio_query`/`synthesis` TTS exchange
(source lines 297-313). -/
structure TTSCall where
  speaker : List Char
  text : List Char
  dest : List Char
deriving DecidableEq

/-- The worker task `synthesize` (source lines 738-741): a no-op when the
audio file already exists on disk, otherwise exactly one TTS synthesize
call; `fs` is the file-existence predicate `Path(...).is_file()`. -/
def synthesizeTask (fs : List Char → Bool) (speaker : List Char) (seg : Segment) :
    List TTSCall :=
  if fs seg.audio_path then [] else [⟨speaker, seg.script_text, seg.audio_path⟩]

/-- The manifest payload written at source lines 757-766. -/
structure Manifest where
  generated_at : List Char
  pdf : List Char
  yamlPath : List Char
  segments : List Segment
deriving DecidableEq

/-- The synthesis stage after the segment list is built (source lines
743-769): each submitted task runs `synthesizeTask` once; the `as_completed`
loop only updates the progress counter and log, so the manifest is written
from the pre-built `segments` list whatever the completion order was. -/
def runAudioStage (fs : List Char → Bool)
    (speaker generated_at pdf yamlPath : List Char) (segs : List Segment)
    (_completionOrder : List Nat) : List TTSCall × Manifest :=
  ((segs.map (synthesizeTask fs speaker)).flatten,
   ⟨generated_at, pdf, yamlPath, segs⟩)

/-- One line of the concatenation list file, `file '<dir>/<chunk>.mp4'`
(source lines 838-839). -/
def concatLineFor (segDir : List Char) (s : Segment) : List Char :=
  "file '".toList ++ segDir ++ '/' :: (s.chunk_name ++ ".mp4'".toList) ++ ['\n']

/-- The concat-list writer loop of `_assemble_video` (source lines 836-839):
one line per segment, in list order. -/
def concatLines (segDir : List Char) : List Segment → List (List Char)
  | [] => []
  | s :: rest => concatLineFor segDir s :: concatLines segDir rest

/-- The integer sequence `s, s+1, ..., s+n-1`. -/
def intRange (s : Int) : Nat → List Int
  | 0 => []
  | n + 1 => s :: intRange (s + 1) n

theorem intRange_append (m : Nat) : ∀ (n : Nat) (s : Int),
    intRange s (n + m) = intRange s n ++ intRange (s + (n : Int)) m := by
  intro n
  induction n with
  | zero =>
    intro s
    simp [intRange]
  | succ n ih =>
    intro s
    have h1 : n + 1 + m = (n + m) + 1 := by omega
    rw [h1]
    have h2 : ((n + 1 : Nat) : Int) = (n : Int) + 1 := by push_cast; ring
    rw [h2]
    show s :: intRange (s + 1) (n + m) =
      s :: intRange (s + 1) n ++ intRange (s + ((n : Int) + 1)) m
    rw [List.cons_append, ih (s + 1)]
    have h3 : s + 1 + (n : Int) = s + ((n : Int) + 1) := by ring
    rw [h3]

theorem le_of_mem_intRange : ∀ (n : Nat) (s x : Int), x ∈ intRange s n → s ≤ x := by
  intro n
  induction n with
  | zero =>
    intro s x h
    simp [intRange] at h
  | succ n ih =>
    intro s x h
    rcases List.mem_cons.mp h with h | h
    · exact le_of_eq h.symm
    · have := ih (s + 1) x h
      omega

theorem intRange_pairwise : ∀ (n : Nat) (s : Int), (intRange s n).Pairwise (· < ·) := by
  intro n
  induction n with
  | zero => intro s; exact List.Pairwise.nil
  | succ n ih =>
    intro s
    refine List.Pairwise.cons ?_ (ih (s + 1))
    intro x hx
    have := le_of_mem_intRange n (s + 1) x hx
    omega

theorem segChunks_map_sequence (audioDir img : List Char) (sid : Int) (note : List Char) :
    ∀ (sentences : List (List Char)) (seq idx : Int),
      (segChunks audioDir img sid note seq idx sentences).map Segment.sequence =
        intRange seq sentences.length := by
  intro sentences
  induction sentences with
  | nil => intro seq idx; rfl
  | cons s rest ih =>
    intro seq idx
    simp [segChunks, intRange, ih]

theorem segChunks_length (audioDir img : List Char) (sid : Int) (note : List Char) :
    ∀ (sentences : List (List Char)) (seq idx : Int),
      (segChunks audioDir img sid note seq idx sentences).length = sentences.length := by
  intro sentences
  induction sentences with
  | nil => intro seq idx; rfl
  | cons s rest ih =>
    intro seq idx
    simp [segChunks, ih]

theorem buildSegs_map_sequence (audioDir : List Char) (imgs : Int → List Char) :
    ∀ (slides : List SlideData) (seq : Int) (segs : List Segment),
      buildSegs audioDir imgs seq slides = Except.ok segs →
      segs.map Segment.sequence = intRange seq segs.length := by
  intro slides
  induction slides with
  | nil =>
    intro seq segs h
    simp [buildSegs] at h
    subst h
    rfl
  | cons slide rest ih =>
    intro seq segs h
    unfold buildSegs at h
    by_cases himg : imgs (slide.id.getD seq) = []
    · rw [if_pos himg] at h
      cases h
    · rw [if_neg himg] at h
      cases htail : buildSegs audioDir imgs
          (seq + ((split_script slide.script).length : Int)) rest with
      | error e => rw [htail] at h; cases h
      | ok tail =>
        rw [htail] at h
        injection h with h
        subst h
        rw [List.map_append,
          segChunks_map_sequence audioDir _ _ _ (split_script slide.script) seq 1,
          ih _ _ htail, List.length_append,
          segChunks_length audioDir _ _ _ (split_script slide.script) seq 1]
        rw [intRange_append tail.length (split_script slide.script).length seq]

theorem concatLines_eq_map (segDir : List Char) :
    ∀ segs : List Segment, concatLines segDir segs = segs.map (concatLineFor segDir) := by
  intro segs
  induction segs with
  | nil => rfl
  | cons s rest ih => simp [concatLines, ih]

/-- C1: if a segment's audio file already exists, its worker task is a no-op
making no TTS call; with every audio file present the whole stage performs
zero synthesize calls and still persists a manifest holding all segments. -/
theorem synthesis_stage_skips_existing_audio (fs : List Char → Bool)
    (speaker generated_at pdf yamlPath : List Char) (segs : List Segment)
    (order : List Nat) (h : ∀ seg ∈ segs, fs seg.audio_path = true) :
    (∀ seg ∈ segs, synthesizeTask fs speaker seg = []) ∧
    (runAudioStage fs speaker generated_at pdf yamlPath segs order).1 = [] ∧
    (runAudioStage fs speaker generated_at pdf yamlPath segs order).2.segments = segs := by
  have htasks : ∀ seg ∈ segs, synthesizeTask fs speaker seg = [] := by
    intro seg hseg
    unfold synthesizeTask
    rw [h seg hseg]
    rfl
  refine ⟨htasks, ?_, rfl⟩
  unfold runAudioStage
  simp only [List.flatten_eq_nil_iff]
  intro l hl
  rcases List.mem_map.mp hl with ⟨seg, hseg, hls⟩
  rw [← hls]
  exact htasks seg hseg

/-- Witness for C1 on a one-segment list whose audio file exists. -/
theorem synthesis_stage_skips_existing_audio_witness :
    (runAudioStage (fun p => decide (p = "a.wav".toList)) "s".toList "g".toList
        "p".toList "y".toList
        [⟨1, 1, 1, "t".toList, [], "i.png".toList, "a.wav".toList⟩] [0]).1 = [] ∧
    (runAudioStage (fun p => decide (p = "a.wav".toList)) "s".toList "g".toList
        "p".toList "y".toList
        [⟨1, 1, 1, "t".toList, [], "i.png".toList, "a.wav".toList⟩] [0]).2.segments =
      [⟨1, 1, 1, "t".toList, [], "i.png".toList, "a.wav".toList⟩] :=
  ⟨(synthesis_stage_skips_existing_audio (fun p => decide (p = "a.wav".toList))
      "s".toList "g".toList "p".toList "y".toList
      [⟨1, 1, 1, "t".toList, [], "i.png".toList, "a.wav".toList⟩] [0] (by decide)).2.1,
   (synthesis_stage_skips_existing_audio (fun p => decide (p = "a.wav".toList))
      "s".toList "g".toList "p".toList "y".toList
      [⟨1, 1, 1, "t".toList, [], "i.png".toList, "a.wav".toList⟩] [0] (by decide)).2.2⟩

/-- C2: for every segment list built by the audio stage, the concatenation
list has exactly one line per segment referencing that segment's clip in
list order, the manifest the assembly stage consumes is the built list for
every completion order, and the `sequence` values are strictly ascending
(1, 2, ...), so the lines are in strictly ascending `sequence` order. -/
theorem concat_list_follows_sequence_order (audioDir : List Char)
    (imgs : Int → List Char) (slides : List SlideData) (segDir : List Char)
    (fs : List Char → Bool) (speaker generated_at pdf yamlPath : List Char)
    (order : List Nat) (segs : List Segment)
    (h : buildSegs audioDir imgs 1 slides = Except.ok segs) :
    concatLines segDir
        ((runAudioStage fs speaker generated_at pdf yamlPath segs order).2.segments)
      = segs.map (concatLineFor segDir) ∧
    ((runAudioStage fs speaker generated_at pdf yamlPath segs order).2.segments).map
        Segment.sequence = intRange 1 segs.length ∧
    (segs.map Segment.sequence).Pairwise (· < ·) := by
  have hseq := buildSegs_map_sequence audioDir imgs slides 1 segs h
  refine ⟨concatLines_eq_map segDir segs, hseq, ?_⟩
  rw [hseq]
  exact intRange_pairwise segs.length 1

/-- Witness for C2: one slide with two sentences, completion order reversed. -/
theorem concat_list_follows_sequence_order_witness :
    concatLines ("sd".toList)
        ((runAudioStage (fun _ => true) "s".toList "g".toList "p".toList "y".toList
            [⟨1, 1, 1, "A。".toList, "n".toList, "i.png".toList,
                "aud/chunk_001_01.wav".toList⟩,
             ⟨1, 2, 2, "B。".toList, "n".toList, "i.png".toList,
                "aud/chunk_001_02.wav".toList⟩] [1, 0]).2.segments)
      = [⟨1, 1, 1, "A。".toList, "n".toList, "i.png".toList,
            "aud/chunk_001_01.wav".toList⟩,
         ⟨1, 2, 2, "B。".toList, "n".toList, "i.png".toList,
            "aud/chunk_001_02.wav".toList⟩].map (concatLineFor ("sd".toList)) ∧
    ((runAudioStage (fun _ => true) "s".toList "g".toList "p".toList "y".toList
        [⟨1, 1, 1, "A。".toList, "n".toList, "i.png".toList,
            "aud/chunk_001_01.wav".toList⟩,
         ⟨1, 2, 2, "B。".toList, "n".toList, "i.png".toList,
            "aud/chunk_001_02.wav".toList⟩] [1, 0]).2.segments).map Segment.sequence
      = intRange 1 ([⟨1, 1, 1, "A。".toList, "n".toList, "i.png".toList,
            "aud/chunk_001_01.wav".toList⟩,
         ⟨1, 2, 2, "B。".toList, "n".toList, "i.png".toList,
            "aud/chunk_001_02.wav".toList⟩] : List Segment).length ∧
    (([⟨1, 1, 1, "A。".toList, "n".toList, "i.png".toList,
          "aud/chunk_001_01.wav".toList⟩,
       ⟨1, 2, 2, "B。".toList, "n".toList, "i.png".toList,
          "aud/chunk_001_02.wav".toList⟩] : List Segment).map Segment.sequence).Pairwise
      (· < ·) :=
  concat_list_follows_sequence_order ("aud".toList)
    (fun i => if i = 1 then "i.png".toList else [])
    [⟨some 1, "A。B".toList, "n".toList⟩] ("sd".toList) (fun _ => true)
    "s".toList "g".toList "p".toList "y".toList [1, 0]
    [⟨1, 1, 1, "A。".toList, "n".toList, "i.png".toList,
        "aud/chunk_001_01.wav".toList⟩,
     ⟨1, 2, 2, "B。".toList, "n".toList, "i.png".toList,
        "aud/chunk_001_02.wav".toList⟩] (by rfl)

/-- One segment record of the manifest JSON: `sequence` and `note_bottom`
may be absent, which `_load_manifest_from_disk` defaults (source lines
899 and 901). -/
structure StoredSegment where
  slide_id : Int
  chunk_index : Int
  sequence : Option Int
  script_text : List Char
  note_bottom : Option (List Char)
  slide_image : List Char
  audio_path : List Char
deriving DecidableEq

/-- The manifest JSON document (source lines 757-762). -/
structure StoredManifest where
  generated_at : List Char
  pdf : List Char
  yamlPath : List Char
  segments : List StoredSegment
deriving DecidableEq

/-- `segment.__dict__` as serialized into the manifest (source line 761):
every field is present. -/
def dumpSegment (s : Segment) : StoredSegment :=
  ⟨s.slide_id, s.chunk_index, some s.sequence, s.script_text, some s.note_bottom,
   s.slide_image, s.audio_path⟩

/-- The payload written by `_generate_audio` (source lines 757-766). -/
def dumpManifest (generated_at pdf yamlPath : List Char) (segs : List Segment) :
    StoredManifest :=
  ⟨generated_at, pdf, yamlPath, segs.map dumpSegment⟩

/-- One segment of `_load_manifest_from_disk` (source lines 896-904):
`sequence` defaults to the 0-based enumeration index plus 1 and
`note_bottom` to the empty string. -/
def decodeStored (idx : Nat) (st : StoredSegment) : Segment :=
  ⟨st.slide_id, st.chunk_index, st.sequence.getD ((idx : Int) + 1), st.script_text,
   st.note_bottom.getD [], st.slide_image, st.audio_path⟩

/-- The `enumerate` comprehension of `_load_manifest_from_disk`
(source lines 895-906). -/
def loadStored : Nat → List StoredSegment → List Segment
  | _, [] => []
  | idx, st :: rest => decodeStored idx st :: loadStored (idx + 1) rest

/-- `_load_manifest_from_disk` (source lines 890-909) on a parsed manifest. -/
def load_manifest (m : StoredManifest) : List Segment :=
  loadStored 0 m.segments

theorem decode_dump (idx : Nat) (s : Segment) : decodeStored idx (dumpSegment s) = s := by
  cases s
  rfl

theorem loadStored_dump : ∀ (segs : List Segment) (idx : Nat),
    loadStored idx (segs.map dumpSegment) = segs := by
  intro segs
  induction segs with
  | nil => intro idx; rfl
  | cons s rest ih =>
    intro idx
    simp [loadStored, decode_dump, ih]

theorem loadStored_getElem? : ∀ (stored : List StoredSegment) (idx i : Nat),
    (loadStored idx stored)[i]? = stored[i]?.map (decodeStored (idx + i)) := by
  intro stored
  induction stored with
  | nil => intro idx i; simp [loadStored]
  | cons st rest ih =>
    intro idx i
    cases i with
    | zero => simp [loadStored]
    | succ i =>
      simp only [loadStored, List.getElem?_cons_succ]
      rw [ih (idx + 1) i]
      have harith : idx + 1 + i = idx + (i + 1) := by omega
      rw [harith]

/-- C3: writing the manifest and loading it back reproduces the same ordered
segment list field-for-field (hence in the same `sequence` order); a stored
segment lacking the `sequence` field is assigned its 1-based position in the
stored list as its sequence. -/
theorem manifest_roundtrip (generated_at pdf yamlPath : List Char)
    (segs : List Segment) :
    load_manifest (dumpManifest generated_at pdf yamlPath segs) = segs ∧
    (∀ (stored : List StoredSegment) (i : Nat) (st : StoredSegment),
        stored[i]? = some st → st.sequence = none →
        ((loadStored 0 stored).map Segment.sequence)[i]? = some ((i : Int) + 1)) := by
  constructor
  · unfold load_manifest dumpManifest
    exact loadStored_dump segs 0
  · intro stored i st hst hnone
    rw [List.getElem?_map, loadStored_getElem? stored 0 i, hst]
    simp [decodeStored, hnone]

/-- Witness for C3: a one-segment round trip, and a stored segment without a
`sequence` field receiving sequence 1 at position 0. -/
theorem manifest_roundtrip_witness :
    load_manifest (dumpManifest "g".toList "p".toList "y".toList
        [⟨2, 1, 5, "t".toList, [], "i".toList, "a".toList⟩]) =
      [⟨2, 1, 5, "t".toList, [], "i".toList, "a".toList⟩] ∧
    ((loadStored 0 [⟨3, 1, none, "t".toList, some [], "i".toList, "a".toList⟩]).map
        Segment.sequence)[0]? = some ((0 : Int) + 1) :=
  ⟨(manifest_roundtrip "g".toList "p".toList "y".toList
      [⟨2, 1, 5, "t".toList, [], "i".toList, "a".toList⟩]).1,
   (manifest_roundtrip "g".toList "p".toList "y".toList
      [⟨2, 1, 5, "t".toList, [], "i".toList, "a".toList⟩]).2
      [⟨3, 1, none, "t".toList, some [], "i".toList, "a".toList⟩] 0
      ⟨3, 1, none, "t".toList, some [], "i".toList, "a".toList⟩ rfl rfl⟩
